import Mathlib

/-!
Shallow embedding of the basin-hopping driver in `basinhopping.py`
(`BasinHopping.__init__`, `BasinHopping.run`, `BasinHopping.mcStep`).

Modelling conventions:
* Configurations are lists of rationals, energies are rationals.
* Python's mutable `self` is the record `BH`, threaded explicitly.
* Collaborators (potential, quench routine, accept tests, observers,
  storage sink, perturbation) may carry external state of type `σ`
  (randomness, counters, ...) which they thread; fallible collaborators
  return `Except Err`.
* Python exceptions are modelled with `Except`; at the driver level the
  error value carries the driver record and world at the point of the
  raise, since Python mutations of `self` made before an exception
  persist after it propagates.
* Every collaborator invocation that the driver performs is recorded
  in an event trace, together with the arguments of the call, so that
  claims about call counts, call order and call arguments are claims
  about the trace.  The single `outstream.write` in the step loop is
  recorded as a `stepReport` event carrying the values the code prints
  (step number, quenched energy, pre-decision Markov energy, accept
  flag); `outstream` output in `__init__` carries no decision data and
  is not modelled.
-/

namespace Pele

/-- Energies: Python floats modelled as rationals. -/
abbrev En := ℚ

/-- A configuration: a one dimensional array of coordinates. -/
abbrev Cfg := List ℚ

/-- Python exception values.  `invalidInitialState` is the distinguished
`InvalidInitialStateError` named by the specification's error taxonomy;
`exc n` is an arbitrary other exception identified by a tag. -/
inductive Err where
  | invalidInitialState
  | exc (n : ℕ)
deriving DecidableEq, Repr

/-- One collaborator invocation performed by the driver, with the
arguments the driver passed (plus the `stepReport` log line of `run`). -/
inductive Event where
  | potentialCall (c : Cfg)
  | storageCall (e : En) (c : Cfg)
  | takeStepCall (c : Cfg)
  | quenchCall (c : Cfg)
  | predCall (i : ℕ) (eold enew : En) (c : Cfg)
  | obsCall (i : ℕ) (e : En) (c : Cfg) (accepted : Bool)
  | stepReport (stepnum : ℕ) (newE : En) (markovE : En) (accepted : Bool)
deriving DecidableEq, Repr

abbrev Trace := List Event

/-- `potential.getEnergy`. -/
abbrev Pot (σ : Type) := Cfg → σ → Except Err (En × σ)

/-- `quenchRoutine(coords, potential.getEnergyGradient)`: returns
`(newcoords, E, rms, funcalls)`.  The gradient callback is absorbed
into the quencher, which is how the driver uses it. -/
abbrev Quencher (σ : Type) := Cfg → σ → Except Err ((Cfg × En × ℚ × ℕ) × σ)

/-- `takeStep`: in-place perturbation, modelled as the map from the
buffer's old value to its new value. -/
abbrev Stepper (σ : Type) := Cfg → σ → Cfg × σ

/-- An accept test: `accept = test(Eold, Enew, new_coords)`. -/
abbrev Pred (σ : Type) := En → En → Cfg → σ → Except Err (Bool × σ)

/-- An `event_after_step` observer: `event(Equench_new, newcoords, acceptstep)`. -/
abbrev Obs (σ : Type) := En → Cfg → Bool → σ → Except Err σ

/-- The storage sink: `storage(E, coords)`. -/
abbrev Store (σ : Type) := En → Cfg → σ → σ

/-- The driver object: the fields `BasinHopping.__init__` stores on `self`. -/
structure BH (σ : Type) where
  coords : Cfg
  storage : Option (Store σ)
  potential : Pot σ
  takeStep : Stepper σ
  event_after_step : List (Obs σ)
  acceptTests : List (Pred σ)
  temperature : ℚ
  nometropolis : Bool
  quenchRoutine : Quencher σ
  stepnum : ℕ
  rms : ℚ
  funcalls : ℕ
  markovE : En

/-- Modelled from the spec: the default Metropolis acceptance predicate
`metropolis.Metropolis(temperature).acceptReject` — the module
`accept_tests/metropolis.py` is not under `src/`.  Per the spec it
"accepts unconditionally if `new_energy <= old_energy`; otherwise
accepts with probability `exp(-(new_energy - old_energy)/temperature)`,
drawn from a uniform random source owned by the predicate instance".
The instance's uniform source is modelled by `rand` on the external
world and the transcendental comparison `draw < exp (-(ΔE)/T)` by the
Boolean oracle `boltzmann draw ΔE temperature`. -/
def metropolisAcceptReject (temperature : ℚ) (rand : σ → ℚ × σ)
    (boltzmann : ℚ → ℚ → ℚ → Bool) : Pred σ :=
  fun Eold Enew _ w =>
    if Enew ≤ Eold then .ok (true, w)
    else
      let p := rand w
      .ok (boltzmann p.1 (Enew - Eold) temperature, p.2)

/-- The accept loop of `mcStep` (lines `acceptstep = True; for test in
self.acceptTests: if not test(Equench_old, Equench, qcoords): acceptstep
= False`), with the running flag `acceptstep` and the index `i` of the
next test made explicit, recording one `predCall` event per invocation. -/
def runTests (tests : List (Pred σ)) (i : ℕ) (Eold Enew : En) (c : Cfg)
    (acceptstep : Bool) (w : σ) (tr : Trace) :
    Except (Err × σ × Trace) (Bool × σ × Trace) :=
  match tests with
  | [] => .ok (acceptstep, w, tr)
  | t :: ts =>
    match t Eold Enew c w with
    | .error e => .error (e, w, tr ++ [Event.predCall i Eold Enew c])
    | .ok (b, w₁) =>
      runTests ts (i + 1) Eold Enew c (acceptstep && b) w₁
        (tr ++ [Event.predCall i Eold Enew c])

/-- Following the spec's words: "Evaluate every registered accept
predicate, in order, as `predicate(markov_energy, quenched_energy,
quenched_configuration)`", collecting the result of every predicate
(no short-circuit); the acceptance decision is the conjunction of the
collected results. -/
def specEvalPredicates (tests : List (Pred σ)) (Eold Enew : En) (c : Cfg)
    (w : σ) : Except Err (List Bool × σ) :=
  match tests with
  | [] => .ok ([], w)
  | t :: ts =>
    match t Eold Enew c w with
    | .error e => .error e
    | .ok (b, w₁) =>
      match specEvalPredicates ts Eold Enew c w₁ with
      | .error e => .error e
      | .ok (bs, w₂) => .ok (b :: bs, w₂)

/-- `BasinHopping.mcStep(coordsold, Equench_old)`: copy the Markov
configuration into a working buffer, perturb the buffer with
`takeStep`, quench it, then run every accept test.  On success returns
`(acceptstep, qcoords, Equench)` together with the updated driver
(`self.rms` and `self.funcalls` are overwritten on quench success);
on an exception the driver as mutated so far is carried in the error. -/
def mcStep (bh : BH σ) (coordsold : Cfg) (Equench_old : En) (w : σ)
    (tr : Trace) :
    Except (Err × BH σ × σ × Trace) ((Bool × Cfg × En) × BH σ × σ × Trace) :=
  let pc := bh.takeStep coordsold w
  let tr₁ := tr ++ [Event.takeStepCall coordsold, Event.quenchCall pc.1]
  match bh.quenchRoutine pc.1 pc.2 with
  | .error e => .error (e, bh, pc.2, tr₁)
  | .ok ((qcoords, Equench, r, f), w₂) =>
    match runTests bh.acceptTests 0 Equench_old Equench qcoords true w₂ tr₁ with
    | .error (e, w₃, tr₃) =>
      .error (e, { bh with rms := r, funcalls := f }, w₃, tr₃)
    | .ok (acceptstep, w₃, tr₃) =>
      .ok ((acceptstep, qcoords, Equench), { bh with rms := r, funcalls := f },
        w₃, tr₃)

/-- The accept/commit block of `run`'s loop body: on acceptance, call
storage (when present) with the candidate and replace `self.coords`
and `self.markovE`; on rejection change nothing. -/
def commitStep (bh : BH σ) (newcoords : Cfg) (newE : En) (acceptstep : Bool)
    (w : σ) (tr : Trace) : BH σ × σ × Trace :=
  if acceptstep then
    match bh.storage with
    | some st =>
      ({ bh with coords := newcoords, markovE := newE },
        st newE newcoords w, tr ++ [Event.storageCall newE newcoords])
    | none => ({ bh with coords := newcoords, markovE := newE }, w, tr)
  else (bh, w, tr)

/-- The observer loop of `run` (`for event in self.event_after_step:
event(self.markovE, self.coords, acceptstep)`), with the index of the
next observer explicit, recording one `obsCall` event per invocation. -/
def runEvents (events : List (Obs σ)) (i : ℕ) (e : En) (c : Cfg)
    (acceptstep : Bool) (w : σ) (tr : Trace) :
    Except (Err × σ × Trace) (σ × Trace) :=
  match events with
  | [] => .ok (w, tr)
  | ev :: evs =>
    match ev e c acceptstep w with
    | .error err => .error (err, w, tr ++ [Event.obsCall i e c acceptstep])
    | .ok w₁ =>
      runEvents evs (i + 1) e c acceptstep w₁
        (tr ++ [Event.obsCall i e c acceptstep])

/-- One iteration of the `for istep in xrange(nsteps)` loop of
`BasinHopping.run`: bump `self.stepnum`, evaluate `mcStep` on the
current Markov state, log the report line, commit on acceptance, then
notify every observer with the post-decision state. -/
def runStepBody (bh : BH σ) (w : σ) (tr : Trace) :
    Except (Err × BH σ × σ × Trace) (BH σ × σ × Trace) :=
  match mcStep { bh with stepnum := bh.stepnum + 1 } bh.coords bh.markovE w tr with
  | .error r => .error r
  | .ok ((acceptstep, newcoords, newE), bh₁, w₁, tr₁) =>
    match commitStep bh₁ newcoords newE acceptstep w₁
        (tr₁ ++ [Event.stepReport bh₁.stepnum newE bh₁.markovE acceptstep]) with
    | (bh₂, w₂, tr₂) =>
      match runEvents bh₂.event_after_step 0 bh₂.markovE bh₂.coords acceptstep
          w₂ tr₂ with
      | .error (e, w₃, tr₃) => .error (e, bh₂, w₃, tr₃)
      | .ok (w₃, tr₃) => .ok (bh₂, w₃, tr₃)

/-- `BasinHopping.run(nsteps)`: iterate the loop body `nsteps` times. -/
def run (bh : BH σ) (nsteps : ℕ) (w : σ) (tr : Trace) :
    Except (Err × BH σ × σ × Trace) (BH σ × σ × Trace) :=
  match nsteps with
  | 0 => .ok (bh, w, tr)
  | n + 1 =>
    match runStepBody bh w tr with
    | .error r => .error r
    | .ok (bh₁, w₁, tr₁) => run bh₁ n w₁ tr₁

/-- `BasinHopping.__init__`: copy the inputs, append the Metropolis
test unless `nometropolis`, evaluate the potential at the start
configuration, store, quench, store again, and assemble the driver.
Exceptions of the potential and of the quench routine propagate. -/
def init (coords0 : Cfg) (potential : Pot σ) (takeStep : Stepper σ)
    (storage : Option (Store σ)) (event_after_step : List (Obs σ))
    (acceptTests : List (Pred σ)) (temperature : ℚ) (nometropolis : Bool)
    (quenchRoutine : Quencher σ) (rand : σ → ℚ × σ)
    (boltzmann : ℚ → ℚ → ℚ → Bool) (w : σ) :
    Except (Err × σ × Trace) (BH σ × σ × Trace) :=
  let tests :=
    if nometropolis then acceptTests
    else acceptTests ++ [metropolisAcceptReject temperature rand boltzmann]
  match potential coords0 w with
  | .error e => .error (e, w, [Event.potentialCall coords0])
  | .ok (potel, w₁) =>
    let p₂ :=
      match storage with
      | some st =>
        (st potel coords0 w₁,
          [Event.potentialCall coords0, Event.storageCall potel coords0])
      | none => (w₁, [Event.potentialCall coords0])
    match quenchRoutine coords0 p₂.1 with
    | .error e => .error (e, p₂.1, p₂.2 ++ [Event.quenchCall coords0])
    | .ok ((newcoords, Equench, r, f), w₂) =>
      let p₃ :=
        match storage with
        | some st =>
          (st Equench newcoords w₂,
            p₂.2 ++ [Event.quenchCall coords0, Event.storageCall Equench newcoords])
        | none => (w₂, p₂.2 ++ [Event.quenchCall coords0])
      .ok ({ coords := newcoords, storage := storage, potential := potential,
             takeStep := takeStep, event_after_step := event_after_step,
             acceptTests := tests, temperature := temperature,
             nometropolis := nometropolis, quenchRoutine := quenchRoutine,
             stepnum := 0, rms := r, funcalls := f, markovE := Equench },
             p₃.1, p₃.2)

/-- Number of events of `tr` satisfying `p`. -/
def countP (p : Event → Bool) (tr : Trace) : ℕ := (tr.filter p).length

/-- Recognizer for storage invocations. -/
def isStorageEvent : Event → Bool
  | Event.storageCall _ _ => true
  | _ => false

/-- Recognizer for the report line of an accepted step. -/
def isAcceptedReport : Event → Bool
  | Event.stepReport _ _ _ accepted => accepted
  | _ => false

/-- Recognizer for an invocation of observer number `i`. -/
def obsTag (i : ℕ) : Event → Bool
  | Event.obsCall j _ _ _ => j == i
  | _ => false

/-- Number of storage invocations recorded in `tr`. -/
def storageCount (tr : Trace) : ℕ := countP isStorageEvent tr

/-- Number of accepted steps recorded in `tr`. -/
def acceptedCount (tr : Trace) : ℕ := countP isAcceptedReport tr

/-- Number of invocations of observer number `i` recorded in `tr`. -/
def obsCount (i : ℕ) (tr : Trace) : ℕ := countP (obsTag i) tr

/-- "Every accept predicate always returns false": whenever a registered
test returns (rather than raises), it returns `false`. -/
def allPredicatesAlwaysFalse (bh : BH σ) : Prop :=
  ∀ t ∈ bh.acceptTests, ∀ a b c w r w', t a b c w = Except.ok (r, w') → r = false

/-- The deterministic descent predicate "accept iff `new_energy ≤
old_energy`" from the spec's monotonicity property. -/
def descentPred : Pred σ :=
  fun Eold Enew _ w => .ok (decide (Enew ≤ Eold), w)

/-! ### Concrete collaborators used to evaluate the development -/

/-- A potential with constant energy. -/
def potC (E : En) : Pot Unit := fun _ w => .ok (E, w)

/-- A potential that raises exception `n`. -/
def potRaise (n : ℕ) : Pot Unit := fun _ _ => .error (.exc n)

/-- The identity perturbation. -/
def stepId : Stepper Unit := fun c w => (c, w)

/-- A quench routine returning the input configuration with constant
energy, zero residual and zero iterations. -/
def qConst (E : En) : Quencher Unit := fun c w => .ok ((c, E, 0, 0), w)

/-- A quench routine that raises exception `n`. -/
def qRaise (n : ℕ) : Quencher Unit := fun _ _ => .error (.exc n)

/-- An accept test that always answers `false`. -/
def predFalse : Pred Unit := fun _ _ _ w => .ok (false, w)

/-- An accept test that always answers `true`. -/
def predTrue : Pred Unit := fun _ _ _ w => .ok (true, w)

/-- An accept test that raises exception `n`. -/
def predRaise (n : ℕ) : Pred Unit := fun _ _ _ _ => .error (.exc n)

/-- An observer with no effect. -/
def obsOk : Obs Unit := fun _ _ _ w => .ok w

/-- An observer that raises exception `n`. -/
def obsRaise (n : ℕ) : Obs Unit := fun _ _ _ _ => .error (.exc n)

/-- A storage sink with no effect. -/
def storeU : Store Unit := fun _ _ w => w

/-- A trivial uniform source. -/
def randU : Unit → ℚ × Unit := fun w => (0, w)

/-- A trivial Boltzmann comparison oracle. -/
def bzF : ℚ → ℚ → ℚ → Bool := fun _ _ _ => false

/-- A driver record over trivial collaborators, with the given accept
tests, observers, storage sink, quench routine and Markov energy, at
Markov configuration `[0]`. -/
def mkBH (tests : List (Pred Unit)) (evs : List (Obs Unit))
    (sto : Option (Store Unit)) (q : Quencher Unit) (E0 : En) : BH Unit :=
  { coords := [0], storage := sto, potential := potC 0, takeStep := stepId,
    event_after_step := evs, acceptTests := tests, temperature := 1,
    nometropolis := true, quenchRoutine := q, stepnum := 0, rms := 0,
    funcalls := 0, markovE := E0 }

/-! ### Structural lemmas about the embedded operations -/

theorem countP_append (p : Event → Bool) (tr l : Trace) :
    countP p (tr ++ l) = countP p tr + countP p l := by
  simp [countP, List.filter_append]

/-- Successful runs of the accept loop agree with the spec's
predicate-evaluation combinator: every test is invoked once, in order,
the trace records one `predCall` per test, and the resulting flag is
the incoming flag conjoined with all collected results. -/
theorem runTests_char (tests : List (Pred σ)) :
    ∀ (i : ℕ) (a b : En) (c : Cfg) (acc : Bool) (w : σ) (tr : Trace)
      (r : Bool) (w' : σ) (tr' : Trace),
      runTests tests i a b c acc w tr = .ok (r, w', tr') →
      ∃ bs : List Bool,
        specEvalPredicates tests a b c w = .ok (bs, w') ∧
        r = (acc && bs.all id) ∧
        tr' = tr ++ (List.range' i tests.length).map
          (fun j => Event.predCall j a b c) := by
  induction tests with
  | nil =>
    intro i a b c acc w tr r w' tr' h
    simp only [runTests, Except.ok.injEq, Prod.mk.injEq] at h
    obtain ⟨h1, h2, h3⟩ := h
    exact ⟨[], by simp [specEvalPredicates, h2], by simp [h1], by simp [h3]⟩
  | cons t ts ih =>
    intro i a b c acc w tr r w' tr' h
    simp only [runTests] at h
    split at h
    · exact absurd h (by simp)
    · rename_i b₁ w₁ heq
      obtain ⟨bs, hs, hr, htr⟩ := ih (i + 1) a b c (acc && b₁) w₁
        (tr ++ [Event.predCall i a b c]) r w' tr' h
      refine ⟨b₁ :: bs, ?_, ?_, ?_⟩
      · simp only [specEvalPredicates, heq, hs]
      · rw [hr]; simp [Bool.and_assoc]
      · rw [htr]; simp [List.range'_succ]

/-- A successful observer loop appends exactly one `obsCall` event per
registered observer, in order, all with the same arguments. -/
theorem runEvents_char (events : List (Obs σ)) :
    ∀ (i : ℕ) (e : En) (c : Cfg) (acc : Bool) (w : σ) (tr : Trace)
      (w' : σ) (tr' : Trace),
      runEvents events i e c acc w tr = .ok (w', tr') →
      tr' = tr ++ (List.range' i events.length).map
        (fun j => Event.obsCall j e c acc) := by
  induction events with
  | nil =>
    intro i e c acc w tr w' tr' h
    simp only [runEvents, Except.ok.injEq, Prod.mk.injEq] at h
    simp [h.2]
  | cons ev evs ih =>
    intro i e c acc w tr w' tr' h
    simp only [runEvents] at h
    split at h
    · exact absurd h (by simp)
    · rename_i w₁ heq
      have := ih (i + 1) e c acc w₁ (tr ++ [Event.obsCall i e c acc]) w' tr' h
      rw [this]; simp [List.range'_succ]

/-- Characterization of a successful `mcStep`: the perturbed working
copy is quenched, `self.rms` and `self.funcalls` are overwritten (and
nothing else on the driver changes), every accept test is evaluated in
order on `(Equench_old, Equench, qcoords)`, and the accept flag is the
conjunction of their results. -/
theorem mcStep_ok_char {bh : BH σ} {c : Cfg} {E : En} {w : σ} {tr : Trace}
    {acc : Bool} {qc : Cfg} {qE : En} {bh' : BH σ} {w' : σ} {tr' : Trace}
    (h : mcStep bh c E w tr = .ok ((acc, qc, qE), bh', w', tr')) :
    ∃ (r : ℚ) (f : ℕ) (wq : σ) (bs : List Bool),
      bh.quenchRoutine (bh.takeStep c w).1 (bh.takeStep c w).2 =
        .ok ((qc, qE, r, f), wq) ∧
      specEvalPredicates bh.acceptTests E qE qc wq = .ok (bs, w') ∧
      acc = bs.all id ∧
      bh' = { bh with rms := r, funcalls := f } ∧
      tr' = tr ++ [Event.takeStepCall c, Event.quenchCall (bh.takeStep c w).1]
        ++ (List.range bh.acceptTests.length).map
          (fun i => Event.predCall i E qE qc) := by
  simp only [mcStep] at h
  split at h
  · exact absurd h (by simp)
  · rename_i qcoords Equench r f w₂ heq
    split at h
    · exact absurd h (by simp)
    · rename_i acceptstep w₃ tr₃ heq₂
      simp only [Except.ok.injEq, Prod.mk.injEq] at h
      obtain ⟨⟨ha, hqc, hqE⟩, hbh, hw, htr⟩ := h
      obtain ⟨bs, hs, hr, htr₂⟩ := runTests_char bh.acceptTests 0 E Equench
        qcoords true w₂ _ acceptstep w₃ tr₃ heq₂
      subst hqc hqE ha hbh hw htr
      refine ⟨r, f, w₂, bs, heq, hs, ?_, rfl, ?_⟩
      · rw [hr]; simp
      · rw [htr₂]; simp [List.range_eq_range']

/-- On an exception inside `mcStep` the driver carried by the error
differs from the input driver at most in `rms` and `funcalls`. -/
theorem mcStep_err_char {bh : BH σ} {c : Cfg} {E : En} {w : σ} {tr : Trace}
    {e : Err} {bh' : BH σ} {w' : σ} {tr' : Trace}
    (h : mcStep bh c E w tr = .error (e, bh', w', tr')) :
    ∃ (r : ℚ) (f : ℕ), bh' = { bh with rms := r, funcalls := f } := by
  simp only [mcStep] at h
  split at h
  · simp only [Except.error.injEq, Prod.mk.injEq] at h
    exact ⟨bh.rms, bh.funcalls, h.2.1.symm⟩
  · rename_i qcoords Equench r f w₂ heq
    split at h
    · simp only [Except.error.injEq, Prod.mk.injEq] at h
      exact ⟨r, f, h.2.1.symm⟩
    · exact absurd h (by simp)

/-- Characterization of the commit block. -/
theorem commitStep_char (bh : BH σ) (nc : Cfg) (ne : En) (acc : Bool)
    (w : σ) (tr : Trace) :
    commitStep bh nc ne acc w tr =
      ((if acc then { bh with coords := nc, markovE := ne } else bh),
       (if acc then (match bh.storage with
          | some st => st ne nc w
          | none => w) else w),
       tr ++ (if acc then (match bh.storage with
          | some _ => [Event.storageCall ne nc]
          | none => []) else [])) := by
  cases acc with
  | false => simp [commitStep]
  | true =>
    cases hs : bh.storage with
    | none => simp [commitStep, hs]
    | some st => simp [commitStep, hs]

/-- Characterization of a successful loop iteration of `run`. -/
theorem runStepBody_ok_char {bh : BH σ} {w : σ} {tr : Trace}
    {bh' : BH σ} {w' : σ} {tr' : Trace}
    (h : runStepBody bh w tr = .ok (bh', w', tr')) :
    ∃ (acc : Bool) (nc : Cfg) (ne : En) (bh₁ : BH σ) (w₁ : σ) (tr₁ : Trace),
      mcStep { bh with stepnum := bh.stepnum + 1 } bh.coords bh.markovE w tr =
        .ok ((acc, nc, ne), bh₁, w₁, tr₁) ∧
      bh' = (if acc then { bh₁ with coords := nc, markovE := ne } else bh₁) ∧
      tr' = tr₁ ++ [Event.stepReport bh₁.stepnum ne bh₁.markovE acc]
        ++ (if acc then (match bh₁.storage with
            | some _ => [Event.storageCall ne nc]
            | none => []) else [])
        ++ (List.range bh₁.event_after_step.length).map
          (fun i => Event.obsCall i bh'.markovE bh'.coords acc) := by
  simp only [runStepBody] at h
  split at h
  · exact absurd h (by simp)
  · rename_i acc nc ne bh₁ w₁ tr₁ heq
    rw [commitStep_char] at h
    split at h
    · exact absurd h (by simp)
    · rename_i w₃ tr₃ heq₂
      simp only [Except.ok.injEq, Prod.mk.injEq] at h
      obtain ⟨hbh, hw, htr⟩ := h
      have hev := runEvents_char _ 0 _ _ acc _ _ _ _ heq₂
      refine ⟨acc, nc, ne, bh₁, w₁, tr₁, heq, hbh.symm, ?_⟩
      have hfields :
          (if acc then { bh₁ with coords := nc, markovE := ne }
            else bh₁).event_after_step = bh₁.event_after_step := by
        cases acc <;> simp
      rw [htr.symm, hev, hfields, hbh]
      simp [List.range_eq_range', List.append_assoc]

/-- Characterization of a loop iteration of `run` aborted by an
exception: either the exception arose inside `mcStep` (perturbation /
quench / accept test) and the error carries the `mcStep`-mutated
driver, or `mcStep` completed, the commit already happened, and the
exception arose in an observer. -/
theorem runStepBody_err_char {bh : BH σ} {w : σ} {tr : Trace}
    {e : Err} {bh' : BH σ} {w' : σ} {tr' : Trace}
    (h : runStepBody bh w tr = .error (e, bh', w', tr')) :
    mcStep { bh with stepnum := bh.stepnum + 1 } bh.coords bh.markovE w tr =
      .error (e, bh', w', tr') ∨
    ∃ (acc : Bool) (nc : Cfg) (ne : En) (bh₁ : BH σ) (w₁ : σ) (tr₁ : Trace),
      mcStep { bh with stepnum := bh.stepnum + 1 } bh.coords bh.markovE w tr =
        .ok ((acc, nc, ne), bh₁, w₁, tr₁) ∧
      bh' = (if acc then { bh₁ with coords := nc, markovE := ne } else bh₁) := by
  simp only [runStepBody] at h
  split at h
  · rename_i r heq
    left
    simp only [Except.error.injEq] at h
    rw [heq, h]
  · rename_i acc nc ne bh₁ w₁ tr₁ heq
    right
    rw [commitStep_char] at h
    split at h
    · rename_i e₂ w₃ tr₃ heq₂
      simp only [Except.error.injEq, Prod.mk.injEq] at h
      exact ⟨acc, nc, ne, bh₁, w₁, tr₁, heq, h.2.1.symm⟩
    · exact absurd h (by simp)

/-- A successful loop iteration does not change the registered accept
tests, observers, storage sink, or other collaborators. -/
theorem runStepBody_fields {bh : BH σ} {w : σ} {tr : Trace}
    {bh' : BH σ} {w' : σ} {tr' : Trace}
    (h : runStepBody bh w tr = .ok (bh', w', tr')) :
    bh'.acceptTests = bh.acceptTests ∧
    bh'.event_after_step = bh.event_after_step ∧
    bh'.storage = bh.storage ∧
    bh'.quenchRoutine = bh.quenchRoutine ∧
    bh'.takeStep = bh.takeStep := by
  obtain ⟨acc, nc, ne, bh₁, w₁, tr₁, hmc, hbh, -⟩ := runStepBody_ok_char h
  obtain ⟨r, f, wq, bs, -, -, -, hbh₁, -⟩ := mcStep_ok_char hmc
  subst hbh hbh₁
  cases acc <;> simp

theorem countP_one (p : Event → Bool) (e : Event) :
    countP p [e] = if p e = true then 1 else 0 := by
  simp only [countP, List.filter_singleton]
  split <;> simp_all

theorem countP_map_zero (p : Event → Bool) (f : ℕ → Event) (l : List ℕ)
    (hf : ∀ j, p (f j) = false) : countP p (l.map f) = 0 := by
  unfold countP
  rw [List.length_eq_zero, List.filter_eq_nil_iff]
  intro e he
  obtain ⟨j, -, rfl⟩ := List.mem_map.mp he
  simp [hf j]

theorem countP_obs_range (i k : ℕ) (e : En) (c : Cfg) (a : Bool) :
    countP (obsTag i) ((List.range k).map (fun j => Event.obsCall j e c a)) =
      if i < k then 1 else 0 := by
  induction k with
  | zero => simp [countP]
  | succ k ih =>
    rw [List.range_succ, List.map_append, countP_append, ih, List.map_singleton,
      countP_one]
    have : obsTag i (Event.obsCall k e c a) = (k == i) := rfl
    rw [this]
    rcases Nat.lt_trichotomy i k with h | h | h
    · simp [h, Nat.lt_succ_of_lt h, Nat.ne_of_gt h]
    · subst h; simp [Nat.lt_irrefl, Nat.lt_succ_self]
    · have h1 : ¬ i < k := Nat.not_lt.mpr (Nat.le_of_lt h)
      have h2 : ¬ i < k + 1 := Nat.not_lt.mpr h
      simp [h1, h2, Nat.ne_of_lt h]

theorem specEval_length (tests : List (Pred σ)) :
    ∀ (a b : En) (c : Cfg) (w : σ) (bs : List Bool) (w' : σ),
      specEvalPredicates tests a b c w = .ok (bs, w') →
      bs.length = tests.length := by
  induction tests with
  | nil =>
    intro a b c w bs w' h
    simp only [specEvalPredicates, Except.ok.injEq, Prod.mk.injEq] at h
    simp [← h.1]
  | cons t ts ih =>
    intro a b c w bs w' h
    simp only [specEvalPredicates] at h
    split at h
    · exact absurd h (by simp)
    · rename_i b₁ w₁ heq
      split at h
      · exact absurd h (by simp)
      · rename_i bs₁ w₂ heq₂
        simp only [Except.ok.injEq, Prod.mk.injEq] at h
        have := ih a b c w₁ bs₁ w₂ heq₂
        simp [← h.1, this]

theorem specEval_false (tests : List (Pred σ))
    (hall : ∀ t ∈ tests, ∀ (a b : En) (c : Cfg) (w : σ) (r : Bool) (w' : σ),
      t a b c w = Except.ok (r, w') → r = false) :
    ∀ (a b : En) (c : Cfg) (w : σ) (bs : List Bool) (w' : σ),
      specEvalPredicates tests a b c w = .ok (bs, w') →
      ∀ x ∈ bs, x = false := by
  induction tests with
  | nil =>
    intro a b c w bs w' h
    simp only [specEvalPredicates, Except.ok.injEq, Prod.mk.injEq] at h
    simp [← h.1]
  | cons t ts ih =>
    intro a b c w bs w' h
    simp only [specEvalPredicates] at h
    split at h
    · exact absurd h (by simp)
    · rename_i b₁ w₁ heq
      split at h
      · exact absurd h (by simp)
      · rename_i bs₁ w₂ heq₂
        simp only [Except.ok.injEq, Prod.mk.injEq] at h
        have hb₁ : b₁ = false := hall t (by simp) a b c w b₁ w₁ heq
        have hrest := ih (fun t' ht' => hall t' (by simp [ht'])) a b c w₁ bs₁ w₂ heq₂
        intro x hx
        rw [← h.1] at hx
        rcases List.mem_cons.mp hx with rfl | hx
        · exact hb₁
        · exact hrest x hx

theorem specEval_singleton (t : Pred σ) (a b : En) (c : Cfg) (w : σ)
    (bs : List Bool) (w' : σ)
    (h : specEvalPredicates [t] a b c w = .ok (bs, w')) :
    ∃ r, t a b c w = .ok (r, w') ∧ bs = [r] := by
  simp only [specEvalPredicates] at h
  split at h
  · exact absurd h (by simp)
  · rename_i b₁ w₁ heq
    simp only [Except.ok.injEq, Prod.mk.injEq] at h
    exact ⟨b₁, by rw [heq, h.2], by simp [← h.1]⟩

theorem countP_nil (p : Event → Bool) : countP p [] = 0 := rfl

theorem countP_cons (p : Event → Bool) (e : Event) (tr : Trace) :
    countP p (e :: tr) = (if p e = true then 1 else 0) + countP p tr := by
  simp only [countP, List.filter_cons]
  split <;> simp_all [Nat.add_comm]

theorem countP_pred_map (p : Event → Bool) {a b : En} {c : Cfg} (l : List ℕ)
    (hp : ∀ j, p (Event.predCall j a b c) = false) :
    countP p (l.map fun j => Event.predCall j a b c) = 0 :=
  countP_map_zero p _ l hp

theorem countP_obs_map (p : Event → Bool) {e : En} {c : Cfg} {acc : Bool}
    (l : List ℕ) (hp : ∀ j, p (Event.obsCall j e c acc) = false) :
    countP p (l.map fun j => Event.obsCall j e c acc) = 0 :=
  countP_map_zero p _ l hp

/-- Per-step observer accounting: one iteration adds exactly one
invocation of each registered observer and none of any other index. -/
theorem runStepBody_obs_delta {bh : BH σ} {w : σ} {tr : Trace}
    {bh' : BH σ} {w' : σ} {tr' : Trace}
    (h : runStepBody bh w tr = .ok (bh', w', tr')) (i : ℕ) :
    obsCount i tr' = obsCount i tr +
      (if i < bh.event_after_step.length then 1 else 0) := by
  obtain ⟨acc, nc, ne, bh₁, w₁, tr₁, hmc, hbh, htr⟩ := runStepBody_ok_char h
  obtain ⟨r, f, wq, bs, -, -, -, hbh₁, htr₁⟩ := mcStep_ok_char hmc
  have hev : bh₁.event_after_step = bh.event_after_step := by rw [hbh₁]
  subst htr htr₁
  rw [show obsCount i = countP (obsTag i) from rfl]
  rw [countP_append, countP_append, countP_append, countP_append, countP_append]
  rw [countP_obs_range, hev, countP_pred_map _ _ (fun j => rfl)]
  rw [countP_cons, countP_cons, countP_nil, countP_cons, countP_nil]
  cases acc
  · simp [countP, obsTag]
  · rcases hsto : bh₁.storage with _ | st <;> simp [hsto, countP, obsTag]

/-- Per-step storage/acceptance accounting, when a storage sink is
present: one iteration adds one `storageCall` exactly when it adds one
accepted `stepReport`. -/
theorem runStepBody_storage_delta {bh : BH σ} {w : σ} {tr : Trace}
    {bh' : BH σ} {w' : σ} {tr' : Trace} {st : Store σ}
    (hst : bh.storage = some st)
    (h : runStepBody bh w tr = .ok (bh', w', tr')) :
    ∃ d : ℕ, storageCount tr' = storageCount tr + d ∧
      acceptedCount tr' = acceptedCount tr + d := by
  obtain ⟨acc, nc, ne, bh₁, w₁, tr₁, hmc, hbh, htr⟩ := runStepBody_ok_char h
  obtain ⟨r, f, wq, bs, -, -, -, hbh₁, htr₁⟩ := mcStep_ok_char hmc
  have hst₁ : bh₁.storage = some st := by rw [hbh₁]; exact hst
  refine ⟨if acc then 1 else 0, ?_, ?_⟩ <;>
  · subst htr htr₁
    first
    | rw [show storageCount = countP isStorageEvent from rfl]
    | rw [show acceptedCount = countP isAcceptedReport from rfl]
    rw [countP_append, countP_append, countP_append, countP_append,
      countP_append, countP_pred_map _ _ (fun j => rfl),
      countP_obs_map _ _ (fun j => rfl)]
    rw [countP_cons, countP_cons, countP_nil, countP_cons, countP_nil]
    rw [hst₁]
    cases acc <;> simp [countP, isStorageEvent, isAcceptedReport]

/-- If every registered test is nonempty-many and always answers
`false`, one loop iteration leaves the Markov state untouched. -/
theorem runStepBody_all_false {bh : BH σ} {w : σ} {tr : Trace}
    {bh' : BH σ} {w' : σ} {tr' : Trace}
    (hne : bh.acceptTests ≠ []) (hall : allPredicatesAlwaysFalse bh)
    (h : runStepBody bh w tr = .ok (bh', w', tr')) :
    bh'.coords = bh.coords ∧ bh'.markovE = bh.markovE := by
  obtain ⟨acc, nc, ne, bh₁, w₁, tr₁, hmc, hbh, -⟩ := runStepBody_ok_char h
  obtain ⟨r, f, wq, bs, -, hspec, hacc, hbh₁, -⟩ := mcStep_ok_char hmc
  have hT : ({ bh with stepnum := bh.stepnum + 1 } : BH σ).acceptTests =
      bh.acceptTests := rfl
  rw [hT] at hspec
  have hfalse := specEval_false bh.acceptTests hall _ _ _ _ _ _ hspec
  have hlen := specEval_length bh.acceptTests _ _ _ _ _ _ hspec
  have hbs : bs ≠ [] := by
    intro hnil
    subst hnil
    exact hne (List.length_eq_zero.mp hlen.symm)
  have hallf : bs.all id = false := by
    cases bs with
    | nil => exact absurd rfl hbs
    | cons b bs' =>
      have hb : b = false := hfalse b (by simp)
      simp [hb]
  rw [hallf] at hacc
  subst hacc hbh hbh₁
  simp

/-- With the sole registered test behaving as "accept iff the new
energy does not exceed the old", one loop iteration never increases
the Markov energy. -/
theorem runStepBody_descent {bh : BH σ} {w : σ} {tr : Trace}
    {bh' : BH σ} {w' : σ} {tr' : Trace} {t : Pred σ}
    (htt : ∀ (a b : En) (c : Cfg) (w₀ : σ), ∃ w₁,
      t a b c w₀ = Except.ok (decide (b ≤ a), w₁))
    (hT : bh.acceptTests = [t])
    (h : runStepBody bh w tr = .ok (bh', w', tr')) :
    bh'.markovE ≤ bh.markovE := by
  obtain ⟨acc, nc, ne, bh₁, w₁, tr₁, hmc, hbh, -⟩ := runStepBody_ok_char h
  obtain ⟨r, f, wq, bs, -, hspec, hacc, hbh₁, -⟩ := mcStep_ok_char hmc
  have hTT : ({ bh with stepnum := bh.stepnum + 1 } : BH σ).acceptTests =
      bh.acceptTests := rfl
  rw [hTT, hT] at hspec
  obtain ⟨rr, heqt, hbs⟩ := specEval_singleton t _ _ _ _ _ _ hspec
  obtain ⟨w₂, heqt₂⟩ := htt bh.markovE ne nc wq
  rw [heqt₂] at heqt
  simp only [Except.ok.injEq, Prod.mk.injEq] at heqt
  subst hbs
  rw [hacc, ← heqt.1] at hbh
  have hm₁ : bh₁.markovE = bh.markovE := by rw [hbh₁]
  cases hd : decide (ne ≤ bh.markovE) with
  | false =>
    rw [hd] at hbh
    simp at hbh
    rw [hbh, hm₁]
  | true =>
    rw [hd] at hbh
    simp at hbh
    rw [hbh]
    simpa using of_decide_eq_true hd

/-- `run` with a nonempty collection of always-false tests leaves the
Markov state untouched. -/
theorem run_all_false :
    ∀ (n : ℕ) (bh : BH σ) (w : σ) (tr : Trace) (bh' : BH σ) (w' : σ)
      (tr' : Trace), bh.acceptTests ≠ [] → allPredicatesAlwaysFalse bh →
      run bh n w tr = .ok (bh', w', tr') →
      bh'.coords = bh.coords ∧ bh'.markovE = bh.markovE := by
  intro n
  induction n with
  | zero =>
    intro bh w tr bh' w' tr' hne hall h
    simp only [run, Except.ok.injEq, Prod.mk.injEq] at h
    rw [← h.1]
    exact ⟨rfl, rfl⟩
  | succ n ih =>
    intro bh w tr bh' w' tr' hne hall h
    simp only [run] at h
    split at h
    · exact absurd h (by simp)
    · rename_i bh₁ w₁ tr₁ heq
      have hstep := runStepBody_all_false hne hall heq
      have hf := runStepBody_fields heq
      have hrest := ih bh₁ w₁ tr₁ bh' w' tr' (by rw [hf.1]; exact hne)
        (by intro tt htt; exact hall tt (hf.1 ▸ htt)) h
      exact ⟨hrest.1.trans hstep.1, hrest.2.trans hstep.2⟩

/-- `run` with the descent test as the only registered test never
increases the Markov energy, and keeps that test registration. -/
theorem run_descent {t : Pred σ}
    (htt : ∀ (a b : En) (c : Cfg) (w₀ : σ), ∃ w₁,
      t a b c w₀ = Except.ok (decide (b ≤ a), w₁)) :
    ∀ (n : ℕ) (bh : BH σ) (w : σ) (tr : Trace) (bh' : BH σ) (w' : σ)
      (tr' : Trace), bh.acceptTests = [t] →
      run bh n w tr = .ok (bh', w', tr') →
      bh'.markovE ≤ bh.markovE ∧ bh'.acceptTests = [t] := by
  intro n
  induction n with
  | zero =>
    intro bh w tr bh' w' tr' hT h
    simp only [run, Except.ok.injEq, Prod.mk.injEq] at h
    rw [← h.1]
    exact ⟨le_refl _, hT⟩
  | succ n ih =>
    intro bh w tr bh' w' tr' hT h
    simp only [run] at h
    split at h
    · exact absurd h (by simp)
    · rename_i bh₁ w₁ tr₁ heq
      have hstep := runStepBody_descent htt hT heq
      have hf := runStepBody_fields heq
      have hrest := ih bh₁ w₁ tr₁ bh' w' tr' (by rw [hf.1]; exact hT) h
      exact ⟨hrest.1.trans hstep, hrest.2⟩

/-- `run` with a storage sink present: storage invocations added and
accepted steps added balance out. -/
theorem run_storage {st : Store σ} :
    ∀ (n : ℕ) (bh : BH σ) (w : σ) (tr : Trace) (bh' : BH σ) (w' : σ)
      (tr' : Trace), bh.storage = some st →
      run bh n w tr = .ok (bh', w', tr') →
      storageCount tr' + acceptedCount tr =
        storageCount tr + acceptedCount tr' := by
  intro n
  induction n with
  | zero =>
    intro bh w tr bh' w' tr' hst h
    simp only [run, Except.ok.injEq, Prod.mk.injEq] at h
    rw [← h.2.2]
  | succ n ih =>
    intro bh w tr bh' w' tr' hst h
    simp only [run] at h
    split at h
    · exact absurd h (by simp)
    · rename_i bh₁ w₁ tr₁ heq
      obtain ⟨d, hs, ha⟩ := runStepBody_storage_delta hst heq
      have hf := runStepBody_fields heq
      have hrest := ih bh₁ w₁ tr₁ bh' w' tr'
        (by rw [hf.2.2.1]; exact hst) h
      omega

/-- `run bh n` notifies each registered observer exactly `n` times. -/
theorem run_obs :
    ∀ (n : ℕ) (bh : BH σ) (w : σ) (tr : Trace) (bh' : BH σ) (w' : σ)
      (tr' : Trace), run bh n w tr = .ok (bh', w', tr') →
      ∀ i, i < bh.event_after_step.length →
        obsCount i tr' = obsCount i tr + n := by
  intro n
  induction n with
  | zero =>
    intro bh w tr bh' w' tr' h i hi
    simp only [run, Except.ok.injEq, Prod.mk.injEq] at h
    rw [← h.2.2]
    omega
  | succ n ih =>
    intro bh w tr bh' w' tr' h i hi
    simp only [run] at h
    split at h
    · exact absurd h (by simp)
    · rename_i bh₁ w₁ tr₁ heq
      have hd := runStepBody_obs_delta heq i
      have hf := runStepBody_fields heq
      have hrest := ih bh₁ w₁ tr₁ bh' w' tr' h i (by rw [hf.2.1]; exact hi)
      rw [if_pos hi] at hd
      omega

/-- Characterization of a successful construction: the driver holds
the quenched state, the (possibly Metropolis-extended) test list, and
the trace records potential, storage (when present) and quench calls. -/
theorem init_ok_char {c0 : Cfg} {pot : Pot σ} {ts : Stepper σ}
    {sto : Option (Store σ)} {evs : List (Obs σ)} {tests : List (Pred σ)}
    {T : ℚ} {nm : Bool} {q : Quencher σ} {rand : σ → ℚ × σ}
    {bz : ℚ → ℚ → ℚ → Bool} {w : σ} {bh : BH σ} {w₁ : σ} {tr₁ : Trace}
    (h : init c0 pot ts sto evs tests T nm q rand bz w = .ok (bh, w₁, tr₁)) :
    ∃ (potel : En) (w₂ : σ) (nc : Cfg) (qE : En) (r : ℚ) (f : ℕ),
      pot c0 w = .ok (potel, w₂) ∧
      bh = { coords := nc, storage := sto, potential := pot, takeStep := ts,
             event_after_step := evs,
             acceptTests := (if nm then tests
               else tests ++ [metropolisAcceptReject T rand bz]),
             temperature := T, nometropolis := nm, quenchRoutine := q,
             stepnum := 0, rms := r, funcalls := f, markovE := qE } ∧
      tr₁ = (match sto with
        | some _ => [Event.potentialCall c0, Event.storageCall potel c0,
            Event.quenchCall c0, Event.storageCall qE nc]
        | none => [Event.potentialCall c0, Event.quenchCall c0]) := by
  rcases sto with _ | st <;>
  · simp only [init] at h
    split at h
    · exact absurd h (by simp)
    · rename_i potel w₂ hpot
      split at h
      · exact absurd h (by simp)
      · rename_i nc qE r f w₃ hq
        simp only [Except.ok.injEq, Prod.mk.injEq] at h
        exact ⟨potel, w₂, nc, qE, r, f, hpot, h.1.symm, h.2.2.symm⟩

/-! ### The claims -/

/-- C1: for every step, `mcStep` invokes every registered accept
predicate exactly once, in collection order (the trace gains one
`predCall` event per index `0, …, k-1`, in order), with arguments
`(old Markov energy, quenched candidate energy, quenched candidate
configuration)`, without short-circuiting (the collected result list
has one entry per registered predicate and the external state is
threaded through every call, per `specEvalPredicates`), and the step
is accepted iff the conjunction of all results holds (vacuously
accepted for an empty collection, since `List.all id [] = true`). -/
theorem mcStep_accept_is_conjunction {bh : BH σ} {c : Cfg} {E : En}
    {w : σ} {tr : Trace} {acc : Bool} {qc : Cfg} {qE : En} {bh' : BH σ}
    {w' : σ} {tr' : Trace}
    (h : mcStep bh c E w tr = .ok ((acc, qc, qE), bh', w', tr')) :
    ∃ (wq : σ) (bs : List Bool),
      specEvalPredicates bh.acceptTests E qE qc wq = .ok (bs, w') ∧
      bs.length = bh.acceptTests.length ∧
      acc = bs.all id ∧
      tr' = tr ++ [Event.takeStepCall c, Event.quenchCall (bh.takeStep c w).1]
        ++ (List.range bh.acceptTests.length).map
          (fun i => Event.predCall i E qE qc) := by
  obtain ⟨r, f, wq, bs, hq, hs, ha, hbh, htr⟩ := mcStep_ok_char h
  exact ⟨wq, bs, hs, specEval_length _ _ _ _ _ _ _ hs, ha, htr⟩

/-- Witness for C1 at a concrete driver with one false and one true
test: both are invoked, in order, and the step is rejected. -/
theorem mcStep_accept_is_conjunction_witness :
    mcStep (mkBH [predFalse, predTrue] [] none (qConst 3) 5) [0] 5 () [] =
      .ok ((false, [0], 3), mkBH [predFalse, predTrue] [] none (qConst 3) 5,
        (), [Event.takeStepCall [0], Event.quenchCall [0],
          Event.predCall 0 5 3 [0], Event.predCall 1 5 3 [0]]) ∧
    (∃ (wq : Unit) (bs : List Bool),
      specEvalPredicates
        (mkBH [predFalse, predTrue] [] none (qConst 3) 5).acceptTests
        5 3 [0] wq = .ok (bs, ()) ∧
      bs.length =
        (mkBH [predFalse, predTrue] [] none (qConst 3) 5).acceptTests.length ∧
      false = bs.all id ∧
      ([Event.takeStepCall [0], Event.quenchCall [0],
        Event.predCall 0 5 3 [0], Event.predCall 1 5 3 [0]] : Trace) =
        [] ++ [Event.takeStepCall [0], Event.quenchCall [0]]
          ++ (List.range 2).map (fun i => Event.predCall i 5 3 [0])) :=
  ⟨rfl, mcStep_accept_is_conjunction rfl⟩

/-- Counterexample for C2 as stated: with an empty predicate
collection the hypothesis "every accept predicate always returns
false" holds vacuously, yet the step is accepted and `run 1` changes
the Markov energy (5 becomes 1). -/
theorem run_vacuous_all_false_cex :
    allPredicatesAlwaysFalse (mkBH [] [] none (qConst 1) 5) ∧
    run (mkBH [] [] none (qConst 1) 5) 1 () [] =
      .ok ({ mkBH [] [] none (qConst 1) 5 with stepnum := 1, markovE := 1 },
        (), [Event.takeStepCall [0], Event.quenchCall [0],
          Event.stepReport 1 1 5 true]) ∧
    ({ mkBH [] [] none (qConst 1) 5 with
        stepnum := 1, markovE := 1 } : BH Unit).markovE ≠
      (mkBH [] [] none (qConst 1) 5).markovE :=
  ⟨fun t ht => absurd ht (List.not_mem_nil t), rfl, by decide⟩

/-- C2 (amended): a rejected step leaves the Markov state
(`self.coords`, `self.markovE`) unchanged; and if the predicate
collection is nonempty and every registered accept predicate always
returns false, the Markov state after `run n` equals the Markov state
before, for every `n`.  (The amendment adds nonemptyness: an empty
collection satisfies "every predicate returns false" vacuously while
every step is accepted.) -/
theorem rejection_preserves_markov_state :
    (∀ (bh : BH σ) (w : σ) (tr : Trace) (nc : Cfg) (ne : En) (bh₁ : BH σ)
       (w₁ : σ) (tr₁ : Trace) (bh₂ : BH σ) (w₂ : σ) (tr₂ : Trace),
       mcStep { bh with stepnum := bh.stepnum + 1 } bh.coords bh.markovE w tr =
         .ok ((false, nc, ne), bh₁, w₁, tr₁) →
       runStepBody bh w tr = .ok (bh₂, w₂, tr₂) →
       bh₂.coords = bh.coords ∧ bh₂.markovE = bh.markovE) ∧
    (∀ (n : ℕ) (bh : BH σ) (w : σ) (tr : Trace) (bh' : BH σ) (w' : σ)
       (tr' : Trace), bh.acceptTests ≠ [] → allPredicatesAlwaysFalse bh →
       run bh n w tr = .ok (bh', w', tr') →
       bh'.coords = bh.coords ∧ bh'.markovE = bh.markovE) := by
  constructor
  · intro bh w tr nc ne bh₁ w₁ tr₁ bh₂ w₂ tr₂ hmc h
    obtain ⟨acc, nc', ne', bh₁', w₁', tr₁', hmc', hbh, -⟩ := runStepBody_ok_char h
    rw [hmc] at hmc'
    simp only [Except.ok.injEq, Prod.mk.injEq] at hmc'
    obtain ⟨⟨hacc, -, -⟩, hb₁, -, -⟩ := hmc'
    obtain ⟨r, f, wq, bs, -, -, -, hbh₁, -⟩ := mcStep_ok_char hmc
    rw [← hacc] at hbh
    simp only [Bool.false_eq_true, if_false] at hbh
    rw [hbh, ← hb₁, hbh₁]
    exact ⟨rfl, rfl⟩
  · exact fun n => run_all_false n

/-- Witness for the amended C2 at a driver whose single test always
answers `false`: the step is rejected and `run 1` preserves coords and
Markov energy. -/
theorem rejection_preserves_markov_state_witness :
    mcStep { mkBH [predFalse] [] none (qConst 1) 5 with stepnum := 1 }
        [0] 5 () [] =
      .ok ((false, [0], 1),
        { mkBH [predFalse] [] none (qConst 1) 5 with stepnum := 1 }, (),
        [Event.takeStepCall [0], Event.quenchCall [0],
         Event.predCall 0 5 1 [0]]) ∧
    runStepBody (mkBH [predFalse] [] none (qConst 1) 5) () [] =
      .ok ({ mkBH [predFalse] [] none (qConst 1) 5 with stepnum := 1 }, (),
        [Event.takeStepCall [0], Event.quenchCall [0],
         Event.predCall 0 5 1 [0], Event.stepReport 1 1 5 false]) ∧
    (mkBH [predFalse] [] none (qConst 1) 5).acceptTests ≠ [] ∧
    allPredicatesAlwaysFalse (mkBH [predFalse] [] none (qConst 1) 5) ∧
    run (mkBH [predFalse] [] none (qConst 1) 5) 1 () [] =
      .ok ({ mkBH [predFalse] [] none (qConst 1) 5 with stepnum := 1 }, (),
        [Event.takeStepCall [0], Event.quenchCall [0],
         Event.predCall 0 5 1 [0], Event.stepReport 1 1 5 false]) ∧
    ({ mkBH [predFalse] [] none (qConst 1) 5 with
        stepnum := 1 } : BH Unit).coords =
      (mkBH [predFalse] [] none (qConst 1) 5).coords ∧
    ({ mkBH [predFalse] [] none (qConst 1) 5 with
        stepnum := 1 } : BH Unit).markovE =
      (mkBH [predFalse] [] none (qConst 1) 5).markovE := by
  have hall : allPredicatesAlwaysFalse (mkBH [predFalse] [] none (qConst 1) 5) := by
    intro t ht a b c w r w' hr
    simp only [mkBH, List.mem_singleton] at ht
    subst ht
    simp only [predFalse, Except.ok.injEq, Prod.mk.injEq] at hr
    exact hr.1.symm
  have hne : (mkBH [predFalse] [] none (qConst 1) 5).acceptTests ≠ [] := by
    simp [mkBH]
  refine ⟨rfl, rfl, hne, hall, rfl, ?_, ?_⟩
  · exact (rejection_preserves_markov_state.1
      (mkBH [predFalse] [] none (qConst 1) 5) () [] [0] 1 _ () _ _ () _ rfl rfl).1
  · exact (rejection_preserves_markov_state.2 1
      (mkBH [predFalse] [] none (qConst 1) 5) () [] _ () _ hne hall rfl).2

/-- C3: in every completed iteration of `run`, after the accept/reject
decision and any Markov-state mutation, every registered observer is
invoked exactly once, in registration order, with the post-decision
Markov energy and configuration and the step's accepted flag — the
very flag returned by that iteration's `mcStep`, whose acceptance also
determines the post-decision driver state the observers see (the
step's trace ends with one `obsCall` per observer index, in order, all
carrying the final driver's Markov state and that flag); and a
completed `run n` adds exactly `n` notifications per registered
observer. -/
theorem run_observer_notifications :
    (∀ (bh : BH σ) (w : σ) (tr : Trace) (bh₁ : BH σ) (w₁ : σ) (tr₁ : Trace),
       runStepBody bh w tr = .ok (bh₁, w₁, tr₁) →
       ∃ (pre : Trace) (acc : Bool) (nc : Cfg) (ne : En) (bh₂ : BH σ)
         (w₂ : σ) (tr₂ : Trace),
         mcStep { bh with stepnum := bh.stepnum + 1 } bh.coords bh.markovE
           w tr = .ok ((acc, nc, ne), bh₂, w₂, tr₂) ∧
         bh₁ = (if acc then { bh₂ with coords := nc, markovE := ne }
           else bh₂) ∧
         tr₁ = pre ++ (List.range bh.event_after_step.length).map
           (fun i => Event.obsCall i bh₁.markovE bh₁.coords acc)) ∧
    (∀ (n : ℕ) (bh : BH σ) (w : σ) (tr : Trace) (bh' : BH σ) (w' : σ)
       (tr' : Trace), run bh n w tr = .ok (bh', w', tr') →
       ∀ i, i < bh.event_after_step.length →
         obsCount i tr' = obsCount i tr + n) := by
  constructor
  · intro bh w tr bh₁ w₁ tr₁ h
    obtain ⟨acc, nc, ne, bh₂, w₂, tr₂, hmc, hbh, htr⟩ := runStepBody_ok_char h
    obtain ⟨r, f, wq, bs, -, -, -, hbh₂, -⟩ := mcStep_ok_char hmc
    have hev : bh₂.event_after_step = bh.event_after_step := by rw [hbh₂]
    exact ⟨_, acc, nc, ne, bh₂, w₂, tr₂, hmc, hbh, by rw [htr, hev]⟩
  · exact fun n => run_obs n

/-- Witness for C3 at a driver with two observers: one step notifies
both, in order, with the updated Markov state, and `run 1` adds one
notification to each. -/
theorem run_observer_notifications_witness :
    runStepBody (mkBH [] [obsOk, obsOk] none (qConst 1) 5) () [] =
      .ok ({ mkBH [] [obsOk, obsOk] none (qConst 1) 5 with
          stepnum := 1, markovE := 1 }, (),
        [Event.takeStepCall [0], Event.quenchCall [0],
         Event.stepReport 1 1 5 true, Event.obsCall 0 1 [0] true,
         Event.obsCall 1 1 [0] true]) ∧
    (∃ (pre : Trace) (acc : Bool) (nc : Cfg) (ne : En) (bh₂ : BH Unit)
      (w₂ : Unit) (tr₂ : Trace),
      mcStep { mkBH [] [obsOk, obsOk] none (qConst 1) 5 with stepnum := 1 }
        [0] 5 () [] = .ok ((acc, nc, ne), bh₂, w₂, tr₂) ∧
      ({ mkBH [] [obsOk, obsOk] none (qConst 1) 5 with
          stepnum := 1, markovE := 1 } : BH Unit) =
        (if acc then { bh₂ with coords := nc, markovE := ne } else bh₂) ∧
      ([Event.takeStepCall [0], Event.quenchCall [0],
        Event.stepReport 1 1 5 true, Event.obsCall 0 1 [0] true,
        Event.obsCall 1 1 [0] true] : Trace) =
        pre ++ (List.range 2).map (fun i => Event.obsCall i 1 [0] acc)) ∧
    run (mkBH [] [obsOk, obsOk] none (qConst 1) 5) 1 () [] =
      .ok ({ mkBH [] [obsOk, obsOk] none (qConst 1) 5 with
          stepnum := 1, markovE := 1 }, (),
        [Event.takeStepCall [0], Event.quenchCall [0],
         Event.stepReport 1 1 5 true, Event.obsCall 0 1 [0] true,
         Event.obsCall 1 1 [0] true]) ∧
    obsCount 0 [Event.takeStepCall [0], Event.quenchCall [0],
      Event.stepReport 1 1 5 true, Event.obsCall 0 1 [0] true,
      Event.obsCall 1 1 [0] true] = obsCount 0 [] + 1 ∧
    obsCount 1 [Event.takeStepCall [0], Event.quenchCall [0],
      Event.stepReport 1 1 5 true, Event.obsCall 0 1 [0] true,
      Event.obsCall 1 1 [0] true] = obsCount 1 [] + 1 :=
  ⟨rfl,
   run_observer_notifications.1 (mkBH [] [obsOk, obsOk] none (qConst 1) 5)
     () [] { mkBH [] [obsOk, obsOk] none (qConst 1) 5 with
       stepnum := 1, markovE := 1 } ()
     [Event.takeStepCall [0], Event.quenchCall [0],
      Event.stepReport 1 1 5 true, Event.obsCall 0 1 [0] true,
      Event.obsCall 1 1 [0] true] rfl,
   rfl,
   run_observer_notifications.2 1 (mkBH [] [obsOk, obsOk] none (qConst 1) 5)
     () [] { mkBH [] [obsOk, obsOk] none (qConst 1) 5 with
       stepnum := 1, markovE := 1 } ()
     [Event.takeStepCall [0], Event.quenchCall [0],
      Event.stepReport 1 1 5 true, Event.obsCall 0 1 [0] true,
      Event.obsCall 1 1 [0] true] rfl 0 (by decide),
   run_observer_notifications.2 1 (mkBH [] [obsOk, obsOk] none (qConst 1) 5)
     () [] { mkBH [] [obsOk, obsOk] none (qConst 1) 5 with
       stepnum := 1, markovE := 1 } ()
     [Event.takeStepCall [0], Event.quenchCall [0],
      Event.stepReport 1 1 5 true, Event.obsCall 0 1 [0] true,
      Event.obsCall 1 1 [0] true] rfl 1 (by decide)⟩

/-- C4: with a storage sink present, construction invokes it exactly
twice (pre-quench and post-quench) and no step report exists yet; and
after `run n` from the constructed driver, the total number of
storage invocations equals `2` plus the number of accepted steps. -/
theorem storage_call_count {c0 : Cfg} {pot : Pot σ} {ts : Stepper σ}
    {st : Store σ} {evs : List (Obs σ)} {tests : List (Pred σ)} {T : ℚ}
    {nm : Bool} {q : Quencher σ} {rand : σ → ℚ × σ}
    {bz : ℚ → ℚ → ℚ → Bool} {w : σ} {bh : BH σ} {w₁ : σ} {tr₁ : Trace}
    (hinit : init c0 pot ts (some st) evs tests T nm q rand bz w =
      .ok (bh, w₁, tr₁)) :
    storageCount tr₁ = 2 ∧ acceptedCount tr₁ = 0 ∧
    ∀ (n : ℕ) (bh' : BH σ) (w' : σ) (tr' : Trace),
      run bh n w₁ tr₁ = .ok (bh', w', tr') →
      storageCount tr' = 2 + acceptedCount tr' := by
  obtain ⟨potel, w₂, nc, qE, r, f, -, hbh, htr⟩ := init_ok_char hinit
  have hsc : storageCount tr₁ = 2 := by rw [htr]; rfl
  have hac : acceptedCount tr₁ = 0 := by rw [htr]; rfl
  refine ⟨hsc, hac, ?_⟩
  intro n bh' w' tr' hrun
  have hst : bh.storage = some st := by rw [hbh]
  have := run_storage n bh w₁ tr₁ bh' w' tr' hst hrun
  omega

/-- Witness for C4: construction stores twice; one accepted step adds
one storage call, totalling `2 + 1`. -/
theorem storage_call_count_witness :
    init [0] (potC 0) stepId (some storeU) [] [] 1 true (qConst 1) randU
        bzF () =
      .ok (mkBH [] [] (some storeU) (qConst 1) 1, (),
        [Event.potentialCall [0], Event.storageCall 0 [0],
         Event.quenchCall [0], Event.storageCall 1 [0]]) ∧
    storageCount [Event.potentialCall [0], Event.storageCall 0 [0],
      Event.quenchCall [0], Event.storageCall 1 [0]] = 2 ∧
    acceptedCount [Event.potentialCall [0], Event.storageCall 0 [0],
      Event.quenchCall [0], Event.storageCall 1 [0]] = 0 ∧
    run (mkBH [] [] (some storeU) (qConst 1) 1) 1 ()
        [Event.potentialCall [0], Event.storageCall 0 [0],
         Event.quenchCall [0], Event.storageCall 1 [0]] =
      .ok ({ mkBH [] [] (some storeU) (qConst 1) 1 with stepnum := 1 }, (),
        [Event.potentialCall [0], Event.storageCall 0 [0],
         Event.quenchCall [0], Event.storageCall 1 [0],
         Event.takeStepCall [0], Event.quenchCall [0],
         Event.stepReport 1 1 1 true, Event.storageCall 1 [0]]) ∧
    storageCount [Event.potentialCall [0], Event.storageCall 0 [0],
      Event.quenchCall [0], Event.storageCall 1 [0],
      Event.takeStepCall [0], Event.quenchCall [0],
      Event.stepReport 1 1 1 true, Event.storageCall 1 [0]] =
      2 + acceptedCount [Event.potentialCall [0], Event.storageCall 0 [0],
        Event.quenchCall [0], Event.storageCall 1 [0],
        Event.takeStepCall [0], Event.quenchCall [0],
        Event.stepReport 1 1 1 true, Event.storageCall 1 [0]] :=
  have hc := @storage_call_count Unit [0] (potC 0) stepId storeU [] [] 1
    true (qConst 1) randU bzF () (mkBH [] [] (some storeU) (qConst 1) 1) ()
    [Event.potentialCall [0], Event.storageCall 0 [0], Event.quenchCall [0],
     Event.storageCall 1 [0]] rfl
  ⟨rfl, hc.1, hc.2.1, rfl,
   hc.2.2 1 { mkBH [] [] (some storeU) (qConst 1) 1 with stepnum := 1 } ()
     [Event.potentialCall [0], Event.storageCall 0 [0], Event.quenchCall [0],
      Event.storageCall 1 [0], Event.takeStepCall [0], Event.quenchCall [0],
      Event.stepReport 1 1 1 true, Event.storageCall 1 [0]] rfl⟩

/-- Counterexample for C5 as stated: a raising observer after an
accepted step propagates its exception out of `run`, but the Markov
state is *not* as before the step — the energy already moved from 5 to
the accepted candidate's energy 1. -/
theorem observer_exception_cex :
    run (mkBH [] [obsRaise 9] none (qConst 1) 5) 1 () [] =
      .error (.exc 9, { mkBH [] [obsRaise 9] none (qConst 1) 5 with
          stepnum := 1, markovE := 1 }, (),
        [Event.takeStepCall [0], Event.quenchCall [0],
         Event.stepReport 1 1 5 true, Event.obsCall 0 1 [0] true]) ∧
    ({ mkBH [] [obsRaise 9] none (qConst 1) 5 with
        stepnum := 1, markovE := 1 } : BH Unit).markovE ≠
      (mkBH [] [obsRaise 9] none (qConst 1) 5).markovE :=
  ⟨rfl, by decide⟩

/-- C5 (amended): predicate and observer exceptions are not caught —
a loop-iteration error is returned by `run` unchanged.  When the
exception arises inside `mcStep` (perturbation, quench, or an accept
predicate) the Markov state is exactly as before the step; when it
arises in an observer the Markov state already reflects that step's
decision — unchanged on a rejected step, but holding the step's
accepted quenched candidate on an accepted step. -/
theorem exception_markov_state_post_decision :
    (∀ (bh : BH σ) (w : σ) (tr : Trace) (r : Err × BH σ × σ × Trace) (n : ℕ),
       runStepBody bh w tr = .error r → run bh (n + 1) w tr = .error r) ∧
    (∀ (bh : BH σ) (w : σ) (tr : Trace) (e : Err) (bh₁ : BH σ) (w₁ : σ)
       (tr₁ : Trace),
       mcStep { bh with stepnum := bh.stepnum + 1 } bh.coords bh.markovE w tr =
         .error (e, bh₁, w₁, tr₁) →
       runStepBody bh w tr = .error (e, bh₁, w₁, tr₁) ∧
       bh₁.coords = bh.coords ∧ bh₁.markovE = bh.markovE) ∧
    (∀ (bh : BH σ) (w : σ) (tr : Trace) (e : Err) (bh' : BH σ) (w' : σ)
       (tr' : Trace),
       runStepBody bh w tr = .error (e, bh', w', tr') →
       (bh'.coords = bh.coords ∧ bh'.markovE = bh.markovE) ∨
       ∃ (nc : Cfg) (ne : En) (bh₁ : BH σ) (w₁ : σ) (tr₁ : Trace),
         mcStep { bh with stepnum := bh.stepnum + 1 } bh.coords bh.markovE w tr =
           .ok ((true, nc, ne), bh₁, w₁, tr₁) ∧
         bh'.coords = nc ∧ bh'.markovE = ne) := by
  refine ⟨?_, ?_, ?_⟩
  · intro bh w tr r n h
    simp only [run, h]
  · intro bh w tr e bh₁ w₁ tr₁ h
    refine ⟨by simp only [runStepBody, h], ?_, ?_⟩ <;>
    · obtain ⟨r, f, hbh₁⟩ := mcStep_err_char h
      rw [hbh₁]
  · intro bh w tr e bh' w' tr' h
    rcases runStepBody_err_char h with hmc | ⟨acc, nc, ne, bh₁, w₁, tr₁, hmc, hbh⟩
    · left
      obtain ⟨r, f, hbh'⟩ := mcStep_err_char hmc
      rw [hbh']
      exact ⟨rfl, rfl⟩
    · cases acc with
      | false =>
        left
        obtain ⟨r, f, wq, bs, -, -, -, hbh₁, -⟩ := mcStep_ok_char hmc
        simp only [Bool.false_eq_true, if_false] at hbh
        rw [hbh, hbh₁]
        exact ⟨rfl, rfl⟩
      | true =>
        right
        refine ⟨nc, ne, bh₁, w₁, tr₁, hmc, ?_, ?_⟩ <;> rw [hbh] <;> simp

/-- Witness for the amended C5 at a driver whose single accept test
raises: the error propagates through `mcStep`, `runStepBody` and
`run`, and the Markov state carried by the error is the pre-step
state. -/
theorem exception_markov_state_post_decision_witness :
    mcStep { mkBH [predRaise 4] [] none (qConst 1) 5 with stepnum := 1 }
        [0] 5 () [] =
      .error (.exc 4,
        { mkBH [predRaise 4] [] none (qConst 1) 5 with stepnum := 1 }, (),
        [Event.takeStepCall [0], Event.quenchCall [0],
         Event.predCall 0 5 1 [0]]) ∧
    (runStepBody (mkBH [predRaise 4] [] none (qConst 1) 5) () [] =
      .error (.exc 4,
        { mkBH [predRaise 4] [] none (qConst 1) 5 with stepnum := 1 }, (),
        [Event.takeStepCall [0], Event.quenchCall [0],
         Event.predCall 0 5 1 [0]]) ∧
     ({ mkBH [predRaise 4] [] none (qConst 1) 5 with
         stepnum := 1 } : BH Unit).coords =
       (mkBH [predRaise 4] [] none (qConst 1) 5).coords ∧
     ({ mkBH [predRaise 4] [] none (qConst 1) 5 with
         stepnum := 1 } : BH Unit).markovE =
       (mkBH [predRaise 4] [] none (qConst 1) 5).markovE) ∧
    run (mkBH [predRaise 4] [] none (qConst 1) 5) 1 () [] =
      .error (.exc 4,
        { mkBH [predRaise 4] [] none (qConst 1) 5 with stepnum := 1 }, (),
        [Event.takeStepCall [0], Event.quenchCall [0],
         Event.predCall 0 5 1 [0]]) ∧
    ((({ mkBH [predRaise 4] [] none (qConst 1) 5 with
          stepnum := 1 } : BH Unit).coords =
        (mkBH [predRaise 4] [] none (qConst 1) 5).coords ∧
      ({ mkBH [predRaise 4] [] none (qConst 1) 5 with
          stepnum := 1 } : BH Unit).markovE =
        (mkBH [predRaise 4] [] none (qConst 1) 5).markovE) ∨
     ∃ (nc : Cfg) (ne : En) (bh₁ : BH Unit) (w₁ : Unit) (tr₁ : Trace),
       mcStep { mkBH [predRaise 4] [] none (qConst 1) 5 with stepnum := 1 }
         [0] 5 () [] = .ok ((true, nc, ne), bh₁, w₁, tr₁) ∧
       ({ mkBH [predRaise 4] [] none (qConst 1) 5 with
           stepnum := 1 } : BH Unit).coords = nc ∧
       ({ mkBH [predRaise 4] [] none (qConst 1) 5 with
           stepnum := 1 } : BH Unit).markovE = ne) :=
  have h2 := exception_markov_state_post_decision.2.1
    (mkBH [predRaise 4] [] none (qConst 1) 5) () [] (.exc 4)
    { mkBH [predRaise 4] [] none (qConst 1) 5 with stepnum := 1 } ()
    [Event.takeStepCall [0], Event.quenchCall [0], Event.predCall 0 5 1 [0]]
    rfl
  ⟨rfl, h2,
   exception_markov_state_post_decision.1
     (mkBH [predRaise 4] [] none (qConst 1) 5) () []
     (.exc 4, { mkBH [predRaise 4] [] none (qConst 1) 5 with stepnum := 1 },
       (), [Event.takeStepCall [0], Event.quenchCall [0],
         Event.predCall 0 5 1 [0]]) 0 h2.1,
   exception_markov_state_post_decision.2.2
     (mkBH [predRaise 4] [] none (qConst 1) 5) () [] (.exc 4)
     { mkBH [predRaise 4] [] none (qConst 1) 5 with stepnum := 1 } ()
     [Event.takeStepCall [0], Event.quenchCall [0], Event.predCall 0 5 1 [0]]
     h2.1⟩

/-- Counterexample for C6 as stated: at a potential raising exception
tag 3, construction fails by propagating that very exception, which is
not the distinguished `InvalidInitialStateError`. -/
theorem init_error_not_wrapped_cex :
    init [0] (potRaise 3) stepId none [] [] 1 true (qConst 0) randU bzF () =
      .error (.exc 3, (), [Event.potentialCall [0]]) ∧
    Err.exc 3 ≠ Err.invalidInitialState :=
  ⟨rfl, by decide⟩

/-- C6 (amended): if the potential's energy evaluation or the quench
routine raises for the starting configuration, construction fails by
propagating that same exception unchanged (the code defines no
`InvalidInitialStateError` wrapping). -/
theorem init_propagates_collaborator_errors (c0 : Cfg) (pot : Pot σ)
    (ts : Stepper σ) (sto : Option (Store σ)) (evs : List (Obs σ))
    (tests : List (Pred σ)) (T : ℚ) (nm : Bool) (q : Quencher σ)
    (rand : σ → ℚ × σ) (bz : ℚ → ℚ → ℚ → Bool) (w : σ) :
    (∀ e, pot c0 w = .error e →
       init c0 pot ts sto evs tests T nm q rand bz w =
         .error (e, w, [Event.potentialCall c0])) ∧
    (∀ (potel : En) (w₂ : σ) (e : Err) (st : Store σ), sto = some st →
       pot c0 w = .ok (potel, w₂) → q c0 (st potel c0 w₂) = .error e →
       init c0 pot ts sto evs tests T nm q rand bz w =
         .error (e, st potel c0 w₂,
           [Event.potentialCall c0, Event.storageCall potel c0,
            Event.quenchCall c0])) ∧
    (∀ (potel : En) (w₂ : σ) (e : Err), sto = none →
       pot c0 w = .ok (potel, w₂) → q c0 w₂ = .error e →
       init c0 pot ts sto evs tests T nm q rand bz w =
         .error (e, w₂,
           [Event.potentialCall c0, Event.quenchCall c0])) := by
  refine ⟨?_, ?_, ?_⟩
  · intro e h
    simp only [init, h]
  · intro potel w₂ e st hsto hpot hq
    subst hsto
    simp only [init, hpot, hq]
    rfl
  · intro potel w₂ e hsto hpot hq
    subst hsto
    simp only [init, hpot, hq]
    rfl

/-- Witness for the amended C6: a raising potential and a raising
quench routine each make construction fail with their own exception. -/
theorem init_propagates_collaborator_errors_witness :
    potRaise 3 [0] () = .error (.exc 3) ∧
    init [0] (potRaise 3) stepId none [] [] 1 true (qConst 0) randU bzF () =
      .error (.exc 3, (), [Event.potentialCall [0]]) ∧
    potC 0 [0] () = .ok (0, ()) ∧
    qRaise 7 [0] () = .error (.exc 7) ∧
    init [0] (potC 0) stepId none [] [] 1 true (qRaise 7) randU bzF () =
      .error (.exc 7, (), [Event.potentialCall [0], Event.quenchCall [0]]) :=
  ⟨rfl,
   (init_propagates_collaborator_errors [0] (potRaise 3) stepId none [] []
     1 true (qConst 0) randU bzF ()).1 (.exc 3) rfl,
   rfl, rfl,
   (init_propagates_collaborator_errors [0] (potC 0) stepId none [] []
     1 true (qRaise 7) randU bzF ()).2.2 0 () (.exc 7) rfl rfl rfl⟩

/-- C7: throughout a step evaluation the driver's stored configuration
and Markov energy are untouched — whether `mcStep` completes or raises
— and the perturbation is invoked on (a working copy of) the
configuration value handed to `mcStep`, as the first recorded
collaborator call of the step; the stored configuration is replaced
only by the driver, on acceptance. -/
theorem mcStep_isolates_markov_state :
    (∀ (bh : BH σ) (c : Cfg) (E : En) (w : σ) (tr : Trace)
       (res : Bool × Cfg × En) (bh' : BH σ) (w' : σ) (tr' : Trace),
       mcStep bh c E w tr = .ok (res, bh', w', tr') →
       bh'.coords = bh.coords ∧ bh'.markovE = bh.markovE ∧
       ∃ rest, tr' = tr ++ Event.takeStepCall c :: rest) ∧
    (∀ (bh : BH σ) (c : Cfg) (E : En) (w : σ) (tr : Trace) (e : Err)
       (bh' : BH σ) (w' : σ) (tr' : Trace),
       mcStep bh c E w tr = .error (e, bh', w', tr') →
       bh'.coords = bh.coords ∧ bh'.markovE = bh.markovE) := by
  constructor
  · intro bh c E w tr res bh' w' tr' h
    rcases res with ⟨acc, qc, qE⟩
    obtain ⟨r, f, wq, bs, -, -, -, hbh, htr⟩ := mcStep_ok_char h
    refine ⟨by rw [hbh], by rw [hbh], Event.quenchCall (bh.takeStep c w).1 ::
      (List.range bh.acceptTests.length).map (fun i => Event.predCall i E qE qc),
      by rw [htr]; simp⟩
  · intro bh c E w tr e bh' w' tr' h
    obtain ⟨r, f, hbh⟩ := mcStep_err_char h
    rw [hbh]
    exact ⟨rfl, rfl⟩

/-- Witness for C7: a completing and a raising `mcStep` both leave the
driver's stored configuration and Markov energy untouched, and both
perturb the configuration value passed in. -/
theorem mcStep_isolates_markov_state_witness :
    mcStep (mkBH [] [] none (qConst 1) 5) [0] 5 () [] =
      .ok ((true, [0], 1), mkBH [] [] none (qConst 1) 5, (),
        [Event.takeStepCall [0], Event.quenchCall [0]]) ∧
    ((mkBH [] [] none (qConst 1) 5).coords =
       (mkBH [] [] none (qConst 1) 5).coords ∧
     (mkBH [] [] none (qConst 1) 5).markovE =
       (mkBH [] [] none (qConst 1) 5).markovE ∧
     ∃ rest, ([Event.takeStepCall [0], Event.quenchCall [0]] : Trace) =
       [] ++ Event.takeStepCall [0] :: rest) ∧
    mcStep (mkBH [] [] none (qRaise 2) 5) [0] 5 () [] =
      .error (.exc 2, mkBH [] [] none (qRaise 2) 5, (),
        [Event.takeStepCall [0], Event.quenchCall [0]]) ∧
    ((mkBH [] [] none (qRaise 2) 5).coords =
       (mkBH [] [] none (qRaise 2) 5).coords ∧
     (mkBH [] [] none (qRaise 2) 5).markovE =
       (mkBH [] [] none (qRaise 2) 5).markovE) :=
  ⟨rfl,
   mcStep_isolates_markov_state.1 (mkBH [] [] none (qConst 1) 5) [0] 5 () []
     (true, [0], 1) (mkBH [] [] none (qConst 1) 5) ()
     [Event.takeStepCall [0], Event.quenchCall [0]] rfl,
   rfl,
   mcStep_isolates_markov_state.2 (mkBH [] [] none (qRaise 2) 5) [0] 5 () []
     (.exc 2) (mkBH [] [] none (qRaise 2) 5) ()
     [Event.takeStepCall [0], Event.quenchCall [0]] rfl⟩

/-- C8: with a sole registered accept test behaving as "accept iff
`new_energy ≤ old_energy`" (no Metropolis test appended), every
completed `run n` — of any length, from any driver state with that
registration, hence also across repeated `run` calls — never increases
the Markov energy, so the Markov energy sequence is non-increasing. -/
theorem descent_predicate_monotone {t : Pred σ}
    (htt : ∀ (a b : En) (c : Cfg) (w₀ : σ), ∃ w₁,
      t a b c w₀ = Except.ok (decide (b ≤ a), w₁)) :
    ∀ (n : ℕ) (bh : BH σ) (w : σ) (tr : Trace) (bh' : BH σ) (w' : σ)
      (tr' : Trace), bh.acceptTests = [t] →
      run bh n w tr = .ok (bh', w', tr') →
      bh'.markovE ≤ bh.markovE ∧ bh'.acceptTests = [t] :=
  fun n => run_descent htt n

/-- Witness for C8 at the canonical descent predicate: a downhill step
(5 to 1) is accepted and `run 1` ends at the lower Markov energy, with
the registration intact. -/
theorem descent_predicate_monotone_witness :
    run (mkBH [descentPred] [] none (qConst 1) 5) 1 () [] =
      .ok ({ mkBH [descentPred] [] none (qConst 1) 5 with
          stepnum := 1, markovE := 1 }, (),
        [Event.takeStepCall [0], Event.quenchCall [0],
         Event.predCall 0 5 1 [0], Event.stepReport 1 1 5 true]) ∧
    ({ mkBH [descentPred] [] none (qConst 1) 5 with
        stepnum := 1, markovE := 1 } : BH Unit).markovE ≤
      (mkBH [descentPred] [] none (qConst 1) 5).markovE ∧
    ({ mkBH [descentPred] [] none (qConst 1) 5 with
        stepnum := 1, markovE := 1 } : BH Unit).acceptTests = [descentPred] :=
  have h := @descent_predicate_monotone Unit descentPred
    (fun _ _ _ w₀ => ⟨w₀, rfl⟩) 1 (mkBH [descentPred] [] none (qConst 1) 5)
    () [] { mkBH [descentPred] [] none (qConst 1) 5 with
      stepnum := 1, markovE := 1 } ()
    [Event.takeStepCall [0], Event.quenchCall [0], Event.predCall 0 5 1 [0],
     Event.stepReport 1 1 5 true] rfl rfl
  ⟨rfl, h.1, h.2⟩

/-- C9: a successful construction registers exactly the caller's
accept tests followed by one Metropolis predicate parameterized by the
temperature argument — appended last, so (by the in-order evaluation
of C1) caller predicates run before the thermal test — and registers
no Metropolis predicate when `nometropolis` is set. -/
theorem init_appends_metropolis (c0 : Cfg) (pot : Pot σ) (ts : Stepper σ)
    (sto : Option (Store σ)) (evs : List (Obs σ)) (tests : List (Pred σ))
    (T : ℚ) (nm : Bool) (q : Quencher σ) (rand : σ → ℚ × σ)
    (bz : ℚ → ℚ → ℚ → Bool) (w : σ) (bh : BH σ) (w₁ : σ) (tr₁ : Trace)
    (h : init c0 pot ts sto evs tests T nm q rand bz w = .ok (bh, w₁, tr₁)) :
    bh.acceptTests = (if nm then tests
      else tests ++ [metropolisAcceptReject T rand bz]) := by
  obtain ⟨potel, w₂, nc, qE, r, f, -, hbh, -⟩ := init_ok_char h
  rw [hbh]

/-- Witness for C9: with `nometropolis` unset the single registered
test is the Metropolis predicate; with it set and one caller test the
registration is exactly that caller test. -/
theorem init_appends_metropolis_witness :
    init [0] (potC 0) stepId none [] [] 1 false (qConst 0) randU bzF () =
      .ok ({ coords := [0], storage := none, potential := potC 0,
             takeStep := stepId, event_after_step := [],
             acceptTests := [metropolisAcceptReject 1 randU bzF],
             temperature := 1, nometropolis := false,
             quenchRoutine := qConst 0, stepnum := 0, rms := 0,
             funcalls := 0, markovE := 0 }, (),
        [Event.potentialCall [0], Event.quenchCall [0]]) ∧
    ({ coords := [0], storage := none, potential := potC 0,
       takeStep := stepId, event_after_step := [],
       acceptTests := [metropolisAcceptReject 1 randU bzF],
       temperature := 1, nometropolis := false, quenchRoutine := qConst 0,
       stepnum := 0, rms := 0, funcalls := 0,
       markovE := 0 } : BH Unit).acceptTests =
      [metropolisAcceptReject 1 randU bzF] ∧
    init [0] (potC 0) stepId none [] [predTrue] 1 true (qConst 0) randU
        bzF () =
      .ok (mkBH [predTrue] [] none (qConst 0) 0, (),
        [Event.potentialCall [0], Event.quenchCall [0]]) ∧
    (mkBH [predTrue] [] none (qConst 0) 0).acceptTests = [predTrue] :=
  ⟨rfl,
   init_appends_metropolis [0] (potC 0) stepId none [] [] 1 false
     (qConst 0) randU bzF ()
     { coords := [0], storage := none, potential := potC 0,
       takeStep := stepId, event_after_step := [],
       acceptTests := [metropolisAcceptReject 1 randU bzF],
       temperature := 1, nometropolis := false, quenchRoutine := qConst 0,
       stepnum := 0, rms := 0, funcalls := 0, markovE := 0 } ()
     [Event.potentialCall [0], Event.quenchCall [0]] rfl,
   rfl,
   init_appends_metropolis [0] (potC 0) stepId none [] [predTrue] 1 true
     (qConst 0) randU bzF () (mkBH [predTrue] [] none (qConst 0) 0) ()
     [Event.potentialCall [0], Event.quenchCall [0]] rfl⟩

/-- C10: a driver constructed with an empty `acceptTests` collection
and `nometropolis` set has an empty test registration, and with an
empty registration every completed loop iteration is accepted: the
Markov state is replaced by the step's quenched candidate, the empty
registration persists (so this holds for every step of every `run`
call), and a present storage sink is invoked exactly once in the
step. -/
theorem no_tests_every_step_accepted :
    (∀ (c0 : Cfg) (pot : Pot σ) (ts : Stepper σ) (sto : Option (Store σ))
       (evs : List (Obs σ)) (T : ℚ) (q : Quencher σ) (rand : σ → ℚ × σ)
       (bz : ℚ → ℚ → ℚ → Bool) (w : σ) (bh : BH σ) (w₁ : σ) (tr₁ : Trace),
       init c0 pot ts sto evs [] T true q rand bz w = .ok (bh, w₁, tr₁) →
       bh.acceptTests = []) ∧
    (∀ (bh : BH σ) (w : σ) (tr : Trace) (bh' : BH σ) (w' : σ) (tr' : Trace),
       bh.acceptTests = [] → runStepBody bh w tr = .ok (bh', w', tr') →
       ∃ (nc : Cfg) (ne : En) (bh₁ : BH σ) (w₁ : σ) (tr₁ : Trace),
         mcStep { bh with stepnum := bh.stepnum + 1 } bh.coords bh.markovE
           w tr = .ok ((true, nc, ne), bh₁, w₁, tr₁) ∧
         bh'.coords = nc ∧ bh'.markovE = ne ∧ bh'.acceptTests = [] ∧
         ∀ st, bh.storage = some st →
           storageCount tr' = storageCount tr + 1) := by
  constructor
  · intro c0 pot ts sto evs T q rand bz w bh w₁ tr₁ h
    obtain ⟨potel, w₂, nc, qE, r, f, -, hbh, -⟩ := init_ok_char h
    rw [hbh]
    simp
  · intro bh w tr bh' w' tr' hT h
    obtain ⟨acc, nc, ne, bh₁, w₁, tr₁, hmc, hbh, htr⟩ := runStepBody_ok_char h
    obtain ⟨r, f, wq, bs, -, hspec, hacc, hbh₁, htr₁⟩ := mcStep_ok_char hmc
    have hTT : ({ bh with stepnum := bh.stepnum + 1 } : BH σ).acceptTests =
        bh.acceptTests := rfl
    rw [hTT, hT] at hspec
    simp only [specEvalPredicates, Except.ok.injEq, Prod.mk.injEq] at hspec
    have hbsnil : bs = [] := hspec.1.symm
    subst hbsnil
    simp only [List.all_nil] at hacc
    subst hacc
    simp only [eq_self_iff_true, if_true] at hbh
    refine ⟨nc, ne, bh₁, w₁, tr₁, hmc, by rw [hbh], by rw [hbh], ?_, ?_⟩
    · rw [hbh]
      have : bh₁.acceptTests = bh.acceptTests := by rw [hbh₁]
      rw [show ({ bh₁ with coords := nc, markovE := ne } : BH σ).acceptTests =
        bh₁.acceptTests from rfl, this, hT]
    · intro st hst
      have hst₁ : bh₁.storage = some st := by rw [hbh₁]; exact hst
      subst htr htr₁
      rw [show storageCount = countP isStorageEvent from rfl]
      rw [countP_append, countP_append, countP_append, countP_append,
        countP_append, countP_pred_map _ _ (fun j => rfl),
        countP_obs_map _ _ (fun j => rfl)]
      rw [countP_cons, countP_cons, countP_nil, countP_cons, countP_nil]
      rw [hst₁]
      simp [countP, isStorageEvent]

/-- Witness for C10: construction with no tests and `nometropolis`
yields an empty registration; a step of a driver with no tests and a
storage sink is accepted, commits the candidate and stores once. -/
theorem no_tests_every_step_accepted_witness :
    init [0] (potC 0) stepId none [] [] 1 true (qConst 0) randU bzF () =
      .ok (mkBH [] [] none (qConst 0) 0, (),
        [Event.potentialCall [0], Event.quenchCall [0]]) ∧
    (mkBH [] [] none (qConst 0) 0).acceptTests = [] ∧
    runStepBody (mkBH [] [] (some storeU) (qConst 1) 5) () [] =
      .ok ({ mkBH [] [] (some storeU) (qConst 1) 5 with
          stepnum := 1, markovE := 1 }, (),
        [Event.takeStepCall [0], Event.quenchCall [0],
         Event.stepReport 1 1 5 true, Event.storageCall 1 [0]]) ∧
    (∃ (nc : Cfg) (ne : En) (bh₁ : BH Unit) (w₁ : Unit) (tr₁ : Trace),
      mcStep { mkBH [] [] (some storeU) (qConst 1) 5 with stepnum := 1 }
        [0] 5 () [] = .ok ((true, nc, ne), bh₁, w₁, tr₁) ∧
      ({ mkBH [] [] (some storeU) (qConst 1) 5 with
          stepnum := 1, markovE := 1 } : BH Unit).coords = nc ∧
      ({ mkBH [] [] (some storeU) (qConst 1) 5 with
          stepnum := 1, markovE := 1 } : BH Unit).markovE = ne ∧
      ({ mkBH [] [] (some storeU) (qConst 1) 5 with
          stepnum := 1, markovE := 1 } : BH Unit).acceptTests = [] ∧
      ∀ st, (mkBH [] [] (some storeU) (qConst 1) 5).storage = some st →
        storageCount [Event.takeStepCall [0], Event.quenchCall [0],
          Event.stepReport 1 1 5 true, Event.storageCall 1 [0]] =
          storageCount [] + 1) :=
  ⟨rfl,
   no_tests_every_step_accepted.1 [0] (potC 0) stepId none [] 1 (qConst 0)
     randU bzF () (mkBH [] [] none (qConst 0) 0) ()
     [Event.potentialCall [0], Event.quenchCall [0]] rfl,
   rfl,
   no_tests_every_step_accepted.2 (mkBH [] [] (some storeU) (qConst 1) 5)
     () [] { mkBH [] [] (some storeU) (qConst 1) 5 with
       stepnum := 1, markovE := 1 } ()
     [Event.takeStepCall [0], Event.quenchCall [0],
      Event.stepReport 1 1 5 true, Event.storageCall 1 [0]] rfl rfl⟩

end Pele
